import Mathlib

/-!
Verification development for the quantum state-vector simulation engine
exercised by the `intel-qs` notebooks (`get_started_examples.ipynb`,
`qaoa_example.ipynb`).  The engine itself (class `QubitRegister` of the
`intelqs_py` module and the free functions
`InitializeVectorAsMaxCutCostFunction`, `ImplementQaoaLayerBasedOnCostFunction`,
`GetHistogramFromCostFunction`) is a pre-built C++ library whose sources are
not part of this repository; every definition below is therefore modelled
from the specification's description of that engine.

The state of an `N`-qubit register is a dense complex vector of `2^N`
amplitudes, indexed by the `N`-bit binary representation of the basis state
(bit `i` of the index corresponds to qubit `i`).
-/

namespace IntelQS

open Complex Finset

noncomputable section

/-- The amplitude vector of an `n`-qubit register. -/
def State (n : ℕ) := Fin (2 ^ n) → ℂ

/-- `x ^^^ y` fits in `n` bits when both operands do. -/
theorem xor_lt_two_pow {x y n : ℕ} (hx : x < 2 ^ n) (hy : y < 2 ^ n) :
    x ^^^ y < 2 ^ n :=
  Nat.bitwise_lt hx hy

/-- The index obtained from `i` by flipping bit `q` (total: reduced mod `2^n`). -/
def flipBit (n q : ℕ) (i : Fin (2 ^ n)) : Fin (2 ^ n) :=
  ⟨(i.val ^^^ 2 ^ q) % 2 ^ n, Nat.mod_lt _ (Nat.two_pow_pos n)⟩

theorem flipBit_val {n q : ℕ} (hq : q < n) (i : Fin (2 ^ n)) :
    (flipBit n q i).val = i.val ^^^ 2 ^ q := by
  have h2 : 2 ^ q < 2 ^ n := Nat.pow_lt_pow_right (by norm_num) hq
  exact Nat.mod_eq_of_lt (xor_lt_two_pow i.isLt h2)

theorem testBit_flipBit_self {n q : ℕ} (hq : q < n) (i : Fin (2 ^ n)) :
    ((flipBit n q i).val.testBit q) = !(i.val.testBit q) := by
  rw [flipBit_val hq, Nat.testBit_xor, Nat.testBit_two_pow_self]
  cases i.val.testBit q <;> rfl

theorem testBit_flipBit_ne {n q r : ℕ} (hq : q < n) (hr : r ≠ q) (i : Fin (2 ^ n)) :
    ((flipBit n q i).val.testBit r) = i.val.testBit r := by
  rw [flipBit_val hq, Nat.testBit_xor, Nat.testBit_two_pow_of_ne (fun h => hr h.symm)]
  cases i.val.testBit r <;> rfl

theorem flipBit_involutive {n q : ℕ} (hq : q < n) (i : Fin (2 ^ n)) :
    flipBit n q (flipBit n q i) = i := by
  apply Fin.ext
  rw [flipBit_val hq, flipBit_val hq, Nat.xor_assoc, Nat.xor_self, Nat.xor_zero]

/-- Modelled from the spec: `basis-state index k` initialization — amplitude 1
at index `k`, 0 elsewhere (in-place re-initialization `Initialize("base", k)`
produces the same contents). -/
def basisState (n k : ℕ) : State n :=
  fun i => if i.val = k then 1 else 0

/-- Modelled from the spec: `create(numQubits, mode, seed, extraParam)` with
mode `"base"`; fails with an `InvalidConfiguration` error when `numQubits < 1`. -/
def createBase (n k : ℕ) : Option (State n) :=
  if 1 ≤ n then some (basisState n k) else none

/-- Sum of squared magnitudes of all amplitudes (the squared norm of the state). -/
def sumNormSq {n : ℕ} (ψ : State n) : ℝ :=
  ∑ i, Complex.normSq (ψ i)

/-- Modelled from the spec: `Apply1QubitGate(q, G)` — the caller-supplied 2×2
matrix `G` acts on every amplitude pair that differs only in bit `q`;
unitarity of `G` is not validated. -/
def apply1QubitGate (n q : ℕ) (G : Matrix (Fin 2) (Fin 2) ℂ) (ψ : State n) : State n :=
  fun i =>
    if i.val.testBit q = false then
      G 0 0 * ψ i + G 0 1 * ψ (flipBit n q i)
    else
      G 1 0 * ψ (flipBit n q i) + G 1 1 * ψ i

/-- The Pauli-X matrix. -/
def pauliXMatrix : Matrix (Fin 2) (Fin 2) ℂ := !![0, 1; 1, 0]

/-- The Pauli-Y matrix. -/
def pauliYMatrix : Matrix (Fin 2) (Fin 2) ℂ := !![0, -Complex.I; Complex.I, 0]

/-- The Pauli-Z matrix. -/
def pauliZMatrix : Matrix (Fin 2) (Fin 2) ℂ := !![1, 0; 0, -1]

/-- The Hadamard matrix entry `1/√2`. -/
def invSqrtTwo : ℂ := Complex.ofReal (Real.sqrt 2)⁻¹

/-- The Hadamard matrix. -/
def hadamardMatrix : Matrix (Fin 2) (Fin 2) ℂ :=
  !![invSqrtTwo, invSqrtTwo; invSqrtTwo, -invSqrtTwo]

/-- The X-rotation matrix `exp(-i θ X / 2)`. -/
def rotationXMatrix (θ : ℝ) : Matrix (Fin 2) (Fin 2) ℂ :=
  !![Complex.ofReal (Real.cos (θ / 2)), -Complex.I * Complex.ofReal (Real.sin (θ / 2));
     -Complex.I * Complex.ofReal (Real.sin (θ / 2)), Complex.ofReal (Real.cos (θ / 2))]

/-- Modelled from the spec: built-in `ApplyPauliX(q)`. -/
def ApplyPauliX (n q : ℕ) (ψ : State n) : State n :=
  apply1QubitGate n q pauliXMatrix ψ

/-- Modelled from the spec: built-in `ApplyHadamard(q)`. -/
def ApplyHadamard (n q : ℕ) (ψ : State n) : State n :=
  apply1QubitGate n q hadamardMatrix ψ

/-- Modelled from the spec: built-in `ApplyRotationX(q, angle)`. -/
def ApplyRotationX (n q : ℕ) (θ : ℝ) (ψ : State n) : State n :=
  apply1QubitGate n q (rotationXMatrix θ) ψ

/-- Modelled from the spec: `ApplyControlled1QubitGate(control, target, G)` —
the single-qubit update on the target bit is restricted to those amplitude
pairs whose control bit is 1; pairs with control bit 0 are untouched. -/
def applyControlled1QubitGate (n c t : ℕ) (G : Matrix (Fin 2) (Fin 2) ℂ)
    (ψ : State n) : State n :=
  fun i =>
    if i.val.testBit c = true then
      (if i.val.testBit t = false then
        G 0 0 * ψ i + G 0 1 * ψ (flipBit n t i)
      else
        G 1 0 * ψ (flipBit n t i) + G 1 1 * ψ i)
    else ψ i

/-- Modelled from the spec: `ApplyCPauliX(control, target)` (CNOT). -/
def ApplyCPauliX (n c t : ℕ) (ψ : State n) : State n :=
  applyControlled1QubitGate n c t pauliXMatrix ψ

/-- Modelled from the spec: `GetProbability(q)` — sums squared magnitudes of
all amplitudes whose bit `q` is 1; does not mutate the state (first component
of the returned pair is the register contents after the call). -/
def GetProbability (n q : ℕ) (ψ : State n) : State n × ℝ :=
  (ψ, ∑ i, if i.val.testBit q = true then Complex.normSq (ψ i) else 0)

/-- The pre-collapse probability of boolean outcome `b` for bit `q`. -/
def probOutcome (n q : ℕ) (b : Bool) (ψ : State n) : ℝ :=
  ∑ i, if i.val.testBit q = b then Complex.normSq (ψ i) else 0

/-- Modelled from the spec: `CollapseQubit(q, outcome)` — zeroes every
amplitude inconsistent with the given boolean outcome for bit `q`; surviving
amplitudes are left unnormalized. -/
def CollapseQubit (n q : ℕ) (b : Bool) (ψ : State n) : State n :=
  fun i => if i.val.testBit q = b then ψ i else 0

/-- Modelled from the spec: `Normalize()` — rescales every amplitude by
`1/‖state‖`; fails with a `DegenerateState` error if the norm is zero. -/
def Normalize {n : ℕ} (ψ : State n) : Option (State n) :=
  if sumNormSq ψ = 0 then none
  else some (fun i => ψ i / Complex.ofReal (Real.sqrt (sumNormSq ψ)))

/-- The single-qubit Pauli matrix for an axis code (X=1, Y=2, Z=3; any other
code denotes the identity). -/
def pauliMatrix : ℕ → Matrix (Fin 2) (Fin 2) ℂ
  | 1 => pauliXMatrix
  | 2 => pauliYMatrix
  | 3 => pauliZMatrix
  | _ => 1

/-- Action of a Pauli-string observable, given as a list of
(qubit index, axis code) pairs, on a state: the tensor product of the named
single-qubit Pauli operators at the listed positions and identity elsewhere,
realised by applying each single-qubit factor in turn. -/
def applyPauliString (n : ℕ) : List (ℕ × ℕ) → State n → State n
  | [], ψ => ψ
  | (q, ax) :: rest, ψ => applyPauliString n rest (apply1QubitGate n q (pauliMatrix ax) ψ)

/-- The inner product `⟨ψ|φ⟩ = ∑ conj(ψ i) · φ i`. -/
def innerProd {n : ℕ} (ψ φ : State n) : ℂ :=
  ∑ i, (starRingEnd ℂ) (ψ i) * φ i

/-- Modelled from the spec: `ExpectationValue(qubitIndices, pauliAxes,
coefficient)` — computes `coefficient · ⟨ψ| P |ψ⟩` for the Pauli string `P`
named by the index/axis lists; read-only, so the first component of the
returned pair (the register contents after the call) is the input state. -/
def ExpectationValue (n : ℕ) (qs axes : List ℕ) (coeff : ℝ) (ψ : State n) :
    State n × ℂ :=
  (ψ, Complex.ofReal coeff * innerProd ψ (applyPauliString n (qs.zip axes) ψ))

/-- The cut value of basis state `i` for the `N`-vertex graph with 0/1
adjacency matrix `A`: the number of edges whose endpoints receive different
bits in the binary representation of `i`. -/
def cutValue (N : ℕ) (A : Fin N → Fin N → ℕ) (i : ℕ) : ℕ :=
  ∑ u : Fin N, ∑ v : Fin N,
    if u < v ∧ A u v ≠ 0 ∧ i.testBit u.val ≠ i.testBit v.val then 1 else 0

/-- Modelled from the spec: `InitializeVectorAsMaxCutCostFunction(vector,
adjacency)` — writes the cut value of every one of the `2^N` basis states
into the cost vector and returns the maximum entry. -/
def InitializeVectorAsMaxCutCostFunction (N : ℕ) (A : Fin N → Fin N → ℕ) :
    (Fin (2 ^ N) → ℕ) × ℕ :=
  (fun i => cutValue N A i.val, (Finset.range (2 ^ N)).sup (cutValue N A))

/-- Modelled from the spec: `ImplementQaoaLayerBasedOnCostFunction(state,
costVector, gamma)` — the diagonal phase rotation
`amplitude[i] *= exp(-i · gamma · costVector[i])`, elementwise. -/
def ImplementQaoaLayerBasedOnCostFunction (n : ℕ) (cost : Fin (2 ^ n) → ℕ)
    (γ : ℝ) (ψ : State n) : State n :=
  fun i => Complex.exp (-(Complex.ofReal (γ * (cost i : ℝ)) * Complex.I)) * ψ i

/-- Modelled from the spec: `GetHistogramFromCostFunction(state, costVector,
maxCutValue)` — the ordered sequence of `maxCutValue+1` probabilities in
which bin `c` accumulates `|amplitude[i]|^2` over the basis states `i` whose
cost-vector entry equals `c`. -/
def GetHistogramFromCostFunction (n : ℕ) (ψ : State n) (cost : Fin (2 ^ n) → ℕ)
    (maxCut : ℕ) : List ℝ :=
  List.ofFn fun c : Fin (maxCut + 1) =>
    ∑ i, if cost i = c.val then Complex.normSq (ψ i) else 0

/-- The uniform superposition on `n` qubits. -/
def uniformState (n : ℕ) : State n :=
  fun _ => Complex.ofReal (Real.sqrt (2 ^ n : ℝ))⁻¹

/-- The operations of the engine exercised by the notebooks.  `initRand` is
the uniform-random initialization; every other operation is deterministic. -/
inductive Op (n : ℕ) where
  | initBase (k : ℕ)
  | initRand
  | pauliX (q : ℕ)
  | hadamard (q : ℕ)
  | rotationX (q : ℕ) (θ : ℝ)
  | gate1 (q : ℕ) (G : Matrix (Fin 2) (Fin 2) ℂ)
  | cgate (c t : ℕ) (G : Matrix (Fin 2) (Fin 2) ℂ)
  | cpauliX (c t : ℕ)
  | collapse (q : ℕ) (b : Bool)
  | renormalize
  | qaoaLayer (cost : Fin (2 ^ n) → ℕ) (γ : ℝ)
  | getProb (q : ℕ)
  | expValue (qs axes : List ℕ) (coeff : ℝ)

/-- Modelled from the spec: execution of one engine call.  The random stream
`rng` is consumed only by `"rand"` initialization (each amplitude is drawn
from the generator and the state is normalized afterward); the returned list
holds the values the call reports to the caller. -/
def runOp {n : ℕ} (rng : ℕ → ℂ) (op : Op n) (ψ : State n) : State n × List ℂ :=
  match op with
  | .initBase k => (basisState n k, [])
  | .initRand =>
      (((Normalize (fun i : Fin (2 ^ n) => rng i.val)).getD
        (fun i : Fin (2 ^ n) => rng i.val)), [])
  | .pauliX q => (ApplyPauliX n q ψ, [])
  | .hadamard q => (ApplyHadamard n q ψ, [])
  | .rotationX q θ => (ApplyRotationX n q θ ψ, [])
  | .gate1 q G => (apply1QubitGate n q G ψ, [])
  | .cgate c t G => (applyControlled1QubitGate n c t G ψ, [])
  | .cpauliX c t => (ApplyCPauliX n c t ψ, [])
  | .collapse q b => (CollapseQubit n q b ψ, [])
  | .renormalize => ((Normalize ψ).getD ψ, [])
  | .qaoaLayer cost γ => (ImplementQaoaLayerBasedOnCostFunction n cost γ ψ, [])
  | .getProb q => (ψ, [Complex.ofReal (GetProbability n q ψ).2])
  | .expValue qs axes coeff => (ψ, [(ExpectationValue n qs axes coeff ψ).2])

/-- Execution of a call sequence, accumulating the reported values. -/
def runOps {n : ℕ} (rng : ℕ → ℂ) : List (Op n) → State n → State n × List ℂ
  | [], ψ => (ψ, [])
  | op :: rest, ψ =>
      let r := runOp rng op ψ
      let r2 := runOps rng rest r.1
      (r2.1, r.2 ++ r2.2)

/-- The 4-qubit state prepared by `Initialize("base", 10)` followed by
Hadamard gates on qubits 0 and 1: the product state `|+,-,0,1⟩`. -/
def preparedPlusMinus01 : State 4 :=
  ApplyHadamard 4 1 (ApplyHadamard 4 0 (basisState 4 10))

/-- Closed-form real amplitudes of `preparedPlusMinus01`: `(|8⟩+|9⟩-|10⟩-|11⟩)/2`. -/
def preparedCoeff (k : ℕ) : ℝ :=
  if k = 8 ∨ k = 9 then 2⁻¹ else if k = 10 ∨ k = 11 then -2⁻¹ else 0

/-- Adjacency matrix of the 6-vertex linear chain 0-1-2-3-4-5. -/
def chainAdjacency : Fin 6 → Fin 6 → ℕ :=
  fun u v => if u.val + 1 = v.val ∨ v.val + 1 = u.val then 1 else 0

/-- Adjacency matrix of the 6-vertex graph with the two edges 0-1 and 4-5. -/
def twoEdgeAdjacency : Fin 6 → Fin 6 → ℕ :=
  fun u v =>
    if (u.val = 0 ∧ v.val = 1) ∨ (u.val = 1 ∧ v.val = 0) ∨
       (u.val = 4 ∧ v.val = 5) ∨ (u.val = 5 ∧ v.val = 4) then 1 else 0

end

theorem sumNormSq_nonneg {n : ℕ} (ψ : State n) : 0 ≤ sumNormSq ψ :=
  Finset.sum_nonneg fun i _ => Complex.normSq_nonneg (ψ i)

theorem sum_bitTrue_eq_sum_flip {n q : ℕ} (hq : q < n) (f : Fin (2 ^ n) → ℝ) :
    (∑ i ∈ Finset.univ.filter (fun i : Fin (2 ^ n) => i.val.testBit q = true), f i) =
      ∑ i ∈ Finset.univ.filter (fun i : Fin (2 ^ n) => i.val.testBit q = false),
        f (flipBit n q i) := by
  refine Finset.sum_nbij' (flipBit n q) (flipBit n q) ?_ ?_ ?_ ?_ ?_
  · intro a ha
    simp only [Finset.mem_filter, Finset.mem_univ, true_and] at ha ⊢
    rw [testBit_flipBit_self hq, ha]
    rfl
  · intro a ha
    simp only [Finset.mem_filter, Finset.mem_univ, true_and] at ha ⊢
    rw [testBit_flipBit_self hq, ha]
    rfl
  · intro a _
    exact flipBit_involutive hq a
  · intro a _
    exact flipBit_involutive hq a
  · intro a _
    rw [flipBit_involutive hq]

/-- The amplitudes of an `n`-qubit state partition into `2^(n-1)` disjoint
pairs differing only in bit `q`: a sum over all indices is the sum over the
pairs. -/
theorem sum_eq_sum_pairs {n q : ℕ} (hq : q < n) (f : Fin (2 ^ n) → ℝ) :
    ∑ i, f i =
      ∑ i ∈ Finset.univ.filter (fun i : Fin (2 ^ n) => i.val.testBit q = false),
        (f i + f (flipBit n q i)) := by
  have hsplit := Finset.sum_filter_add_sum_filter_not Finset.univ
      (fun i : Fin (2 ^ n) => i.val.testBit q = false) f
  have hnot : Finset.univ.filter (fun i : Fin (2 ^ n) => ¬ i.val.testBit q = false) =
      Finset.univ.filter (fun i : Fin (2 ^ n) => i.val.testBit q = true) := by
    apply Finset.filter_congr
    intro i _
    simp
  rw [Finset.sum_add_distrib, ← hsplit, hnot, sum_bitTrue_eq_sum_flip hq]

/-- Column-orthonormality of a 2×2 matrix makes the pairwise amplitude update
preserve the summed squared magnitude of the pair. -/
theorem normSq_pair_update (g00 g01 g10 g11 a b : ℂ)
    (h1 : (starRingEnd ℂ) g00 * g00 + (starRingEnd ℂ) g10 * g10 = 1)
    (h2 : (starRingEnd ℂ) g01 * g01 + (starRingEnd ℂ) g11 * g11 = 1)
    (h3 : (starRingEnd ℂ) g00 * g01 + (starRingEnd ℂ) g10 * g11 = 0) :
    Complex.normSq (g00 * a + g01 * b) + Complex.normSq (g10 * a + g11 * b) =
      Complex.normSq a + Complex.normSq b := by
  have h3' : g00 * (starRingEnd ℂ) g01 + g10 * (starRingEnd ℂ) g11 = 0 := by
    have hc := congrArg (starRingEnd ℂ) h3
    simpa [mul_comm] using hc
  have key : ((Complex.normSq (g00 * a + g01 * b) : ℂ) +
        (Complex.normSq (g10 * a + g11 * b) : ℂ)) =
      (Complex.normSq a : ℂ) + (Complex.normSq b : ℂ) := by
    rw [← Complex.mul_conj, ← Complex.mul_conj, ← Complex.mul_conj, ← Complex.mul_conj]
    simp only [map_add, map_mul]
    linear_combination (a * (starRingEnd ℂ) a) * h1 + (b * (starRingEnd ℂ) b) * h2 +
      ((starRingEnd ℂ) a * b) * h3 + (a * (starRingEnd ℂ) b) * h3'
  exact_mod_cast key

/-- The three column-orthonormality identities of a 2×2 matrix with
`Gᴴ G = 1`. -/
theorem unitary_entries (G : Matrix (Fin 2) (Fin 2) ℂ) (hG : G.conjTranspose * G = 1) :
    ((starRingEnd ℂ) (G 0 0) * G 0 0 + (starRingEnd ℂ) (G 1 0) * G 1 0 = 1) ∧
    ((starRingEnd ℂ) (G 0 1) * G 0 1 + (starRingEnd ℂ) (G 1 1) * G 1 1 = 1) ∧
    ((starRingEnd ℂ) (G 0 0) * G 0 1 + (starRingEnd ℂ) (G 1 0) * G 1 1 = 0) := by
  refine ⟨?_, ?_, ?_⟩
  · have h := congrFun (congrFun hG 0) 0
    simpa [Matrix.mul_apply, Fin.sum_univ_two, Matrix.conjTranspose_apply,
      Matrix.one_apply] using h
  · have h := congrFun (congrFun hG 1) 1
    simpa [Matrix.mul_apply, Fin.sum_univ_two, Matrix.conjTranspose_apply,
      Matrix.one_apply] using h
  · have h := congrFun (congrFun hG 0) 1
    simpa [Matrix.mul_apply, Fin.sum_univ_two, Matrix.conjTranspose_apply,
      Matrix.one_apply] using h

/-- A single-qubit gate with `Gᴴ G = 1` preserves the summed squared
magnitude of the amplitudes. -/
theorem sumNormSq_apply1QubitGate {n q : ℕ} (hq : q < n)
    (G : Matrix (Fin 2) (Fin 2) ℂ) (hG : G.conjTranspose * G = 1) (ψ : State n) :
    sumNormSq (apply1QubitGate n q G ψ) = sumNormSq ψ := by
  obtain ⟨h1, h2, h3⟩ := unitary_entries G hG
  unfold sumNormSq
  rw [sum_eq_sum_pairs hq (fun i => Complex.normSq (apply1QubitGate n q G ψ i)),
    sum_eq_sum_pairs hq (fun i => Complex.normSq (ψ i))]
  apply Finset.sum_congr rfl
  intro i hi
  simp only [Finset.mem_filter, Finset.mem_univ, true_and] at hi
  have hbit' : (flipBit n q i).val.testBit q = true := by
    rw [testBit_flipBit_self hq, hi]
    rfl
  simp only [apply1QubitGate, hi, hbit', flipBit_involutive hq]
  simp only [if_true, Bool.true_eq_false, if_false]
  exact normSq_pair_update (G 0 0) (G 0 1) (G 1 0) (G 1 1) (ψ i) (ψ (flipBit n q i)) h1 h2 h3

/-- A controlled single-qubit gate with `Gᴴ G = 1` preserves the summed
squared magnitude of the amplitudes. -/
theorem sumNormSq_applyControlled1QubitGate {n c t : ℕ} (ht : t < n) (hct : c ≠ t)
    (G : Matrix (Fin 2) (Fin 2) ℂ) (hG : G.conjTranspose * G = 1) (ψ : State n) :
    sumNormSq (applyControlled1QubitGate n c t G ψ) = sumNormSq ψ := by
  obtain ⟨h1, h2, h3⟩ := unitary_entries G hG
  unfold sumNormSq
  rw [sum_eq_sum_pairs ht
      (fun i => Complex.normSq (applyControlled1QubitGate n c t G ψ i)),
    sum_eq_sum_pairs ht (fun i => Complex.normSq (ψ i))]
  apply Finset.sum_congr rfl
  intro i hi
  simp only [Finset.mem_filter, Finset.mem_univ, true_and] at hi
  have hbit' : (flipBit n t i).val.testBit t = true := by
    rw [testBit_flipBit_self ht, hi]
    rfl
  have hctrl : (flipBit n t i).val.testBit c = i.val.testBit c :=
    testBit_flipBit_ne ht hct i
  by_cases hc : i.val.testBit c = true
  · simp only [applyControlled1QubitGate, hc, hctrl, hi, hbit', flipBit_involutive ht]
    simp only [if_true, Bool.true_eq_false, if_false]
    exact normSq_pair_update (G 0 0) (G 0 1) (G 1 0) (G 1 1) (ψ i) (ψ (flipBit n t i)) h1 h2 h3
  · have hc' : i.val.testBit c = false := by
      simpa using hc
    simp only [applyControlled1QubitGate, hc', hctrl, Bool.false_eq_true, if_false]

/-- The Pauli-X matrix is unitary. -/
theorem pauliXMatrix_unitary : pauliXMatrix.conjTranspose * pauliXMatrix = 1 := by
  ext i j
  fin_cases i <;> fin_cases j <;>
    simp [pauliXMatrix, Matrix.mul_apply, Fin.sum_univ_two, Matrix.conjTranspose_apply,
      Matrix.one_apply]

/-- The Hadamard matrix is unitary. -/
theorem hadamardMatrix_unitary : hadamardMatrix.conjTranspose * hadamardMatrix = 1 := by
  have hs : (Real.sqrt 2)⁻¹ * (Real.sqrt 2)⁻¹ = 2⁻¹ := by
    rw [← mul_inv]
    rw [Real.mul_self_sqrt (by norm_num : (0:ℝ) ≤ 2)]
  ext i j
  fin_cases i <;> fin_cases j <;>
    simp [hadamardMatrix, invSqrtTwo, Matrix.mul_apply, Fin.sum_univ_two,
      Matrix.conjTranspose_apply, Matrix.one_apply, ← Complex.ofReal_mul, hs] <;>
    simp only [← Complex.ofReal_inv, ← Complex.ofReal_mul, hs] <;>
    norm_num

/-- A matrix of the X-rotation shape with `s² + c² = 1` is unitary. -/
theorem rotationShape_unitary (c s : ℝ) (hsc : s ^ 2 + c ^ 2 = 1) :
    (!![Complex.ofReal c, -Complex.I * Complex.ofReal s;
        -Complex.I * Complex.ofReal s, Complex.ofReal c] :
      Matrix (Fin 2) (Fin 2) ℂ).conjTranspose *
      !![Complex.ofReal c, -Complex.I * Complex.ofReal s;
         -Complex.I * Complex.ofReal s, Complex.ofReal c] = 1 := by
  ext i j
  fin_cases i <;> fin_cases j <;>
    simp [Matrix.mul_apply, Fin.sum_univ_two,
      Matrix.conjTranspose_apply, Matrix.one_apply, Complex.ext_iff] <;>
    ring_nf <;>
    nlinarith [hsc]

/-- The X-rotation matrix is unitary. -/
theorem rotationXMatrix_unitary (θ : ℝ) :
    (rotationXMatrix θ).conjTranspose * rotationXMatrix θ = 1 := by
  have h := rotationShape_unitary (Real.cos (θ / 2)) (Real.sin (θ / 2))
    (Real.sin_sq_add_cos_sq _)
  simpa [rotationXMatrix] using h

/-- A state produced by a successful `Normalize` has unit summed squared
magnitude. -/
theorem sumNormSq_of_normalize {n : ℕ} (ψ φ : State n) (h : Normalize ψ = some φ) :
    sumNormSq φ = 1 := by
  by_cases h0 : sumNormSq ψ = 0
  · simp [Normalize, h0] at h
  · simp only [Normalize, h0, if_false, Option.some_inj] at h
    subst h
    have hpos : 0 < sumNormSq ψ := lt_of_le_of_ne (sumNormSq_nonneg ψ) (Ne.symm h0)
    show (∑ i, Complex.normSq (ψ i / Complex.ofReal (Real.sqrt (sumNormSq ψ)))) = 1
    have hstep : ∀ i : Fin (2 ^ n),
        Complex.normSq (ψ i / Complex.ofReal (Real.sqrt (sumNormSq ψ))) =
          Complex.normSq (ψ i) / sumNormSq ψ := by
      intro i
      rw [Complex.normSq_div, Complex.normSq_ofReal,
        Real.mul_self_sqrt (le_of_lt hpos)]
    rw [Finset.sum_congr rfl fun i _ => hstep i, ← Finset.sum_div]
    exact div_self h0

/-- Each diagonal QAOA phase factor has unit modulus. -/
theorem normSq_qaoaPhase (x : ℝ) :
    Complex.normSq (Complex.exp (-(Complex.ofReal x * Complex.I))) = 1 := by
  rw [Complex.normSq_eq_abs, Complex.abs_exp]
  simp

/-- The diagonal QAOA layer leaves the squared magnitude of every amplitude
unchanged. -/
theorem normSq_qaoaLayer {n : ℕ} (cost : Fin (2 ^ n) → ℕ) (γ : ℝ) (ψ : State n)
    (i : Fin (2 ^ n)) :
    Complex.normSq (ImplementQaoaLayerBasedOnCostFunction n cost γ ψ i) =
      Complex.normSq (ψ i) := by
  unfold ImplementQaoaLayerBasedOnCostFunction
  rw [Complex.normSq_mul, normSq_qaoaPhase, one_mul]

/-- The QAOA layer preserves the summed squared magnitude. -/
theorem sumNormSq_qaoaLayer {n : ℕ} (cost : Fin (2 ^ n) → ℕ) (γ : ℝ) (ψ : State n) :
    sumNormSq (ImplementQaoaLayerBasedOnCostFunction n cost γ ψ) = sumNormSq ψ := by
  unfold sumNormSq
  exact Finset.sum_congr rfl fun i _ => normSq_qaoaLayer cost γ ψ i

/-- The squared norm of a collapsed state is the pre-collapse probability of
the collapse outcome. -/
theorem sumNormSq_collapse {n q : ℕ} (b : Bool) (ψ : State n) :
    sumNormSq (CollapseQubit n q b ψ) = probOutcome n q b ψ := by
  unfold sumNormSq probOutcome CollapseQubit
  apply Finset.sum_congr rfl
  intro i _
  by_cases hb : i.val.testBit q = b <;> simp [hb]

/-- `GetProbability` reports the probability of outcome `true`. -/
theorem getProbability_eq_probOutcome {n q : ℕ} (ψ : State n) :
    (GetProbability n q ψ).2 = probOutcome n q true ψ := rfl

/-- The probability of either outcome is bounded by the squared norm. -/
theorem probOutcome_le_sumNormSq {n q : ℕ} (b : Bool) (ψ : State n) :
    probOutcome n q b ψ ≤ sumNormSq ψ := by
  unfold probOutcome sumNormSq
  apply Finset.sum_le_sum
  intro i _
  by_cases hb : i.val.testBit q = b <;>
    simp [hb, Complex.normSq_nonneg]

theorem probOutcome_nonneg {n q : ℕ} (b : Bool) (ψ : State n) :
    0 ≤ probOutcome n q b ψ := by
  unfold probOutcome
  apply Finset.sum_nonneg
  intro i _
  by_cases hb : i.val.testBit q = b <;> simp [hb, Complex.normSq_nonneg]

/-- After collapsing to outcome `b`, the whole squared norm sits on the
`bit = true` side exactly when `b = true`. -/
theorem probOutcome_true_collapse {n q : ℕ} (b : Bool) (ψ : State n) :
    probOutcome n q true (CollapseQubit n q b ψ) =
      if b then sumNormSq (CollapseQubit n q b ψ) else 0 := by
  cases b with
  | true =>
      simp only [if_true]
      rw [sumNormSq_collapse]
      unfold probOutcome CollapseQubit
      apply Finset.sum_congr rfl
      intro i _
      by_cases hb : i.val.testBit q = true <;> simp [hb]
  | false =>
      simp only [Bool.false_eq_true, if_false]
      unfold probOutcome CollapseQubit
      apply Finset.sum_eq_zero
      intro i _
      by_cases hb : i.val.testBit q = true
      · simp [hb]
      · simp [hb]

/-- C9: for every `N ≥ 1` and basis-state index `k < 2^N`, a register created
with mode `"base"` and index `k` — or re-initialized in place via
`Initialize("base", k)` — has amplitude 1 at position `k` and amplitude 0 at
every other position. -/
theorem claim9_base_initialization (n k : ℕ) (hn : 1 ≤ n) (hk : k < 2 ^ n) :
    ∃ ψ : State n, createBase n k = some ψ ∧
      (∀ (rng : ℕ → ℂ) (ψ0 : State n), (runOp rng (Op.initBase k) ψ0).1 = ψ) ∧
      ψ ⟨k, hk⟩ = 1 ∧ ∀ i : Fin (2 ^ n), i.val ≠ k → ψ i = 0 := by
  refine ⟨basisState n k, ?_, fun _ _ => rfl, ?_, ?_⟩
  · simp [createBase, hn]
  · simp [basisState]
  · intro i hi
    simp [basisState, hi]

theorem claim9_base_initialization_witness :
    ∃ ψ : State 1, createBase 1 1 = some ψ ∧
      (∀ (rng : ℕ → ℂ) (ψ0 : State 1), (runOp rng (Op.initBase 1) ψ0).1 = ψ) ∧
      ψ ⟨1, by decide⟩ = 1 ∧ ∀ i : Fin (2 ^ 1), i.val ≠ 1 → ψ i = 0 :=
  claim9_base_initialization 1 1 (by decide) (by decide)

/-- C5: for every state, cost vector and `γ`, the QAOA layer replaces each
`amplitude[i]` by `exp(-i·γ·cost[i]) · amplitude[i]` independently for every
index — a multiplication by a unit-modulus phase that depends only on the
amplitude at the same index (no mixing), so every magnitude is unchanged. -/
theorem claim5_qaoa_layer (n : ℕ) (cost : Fin (2 ^ n) → ℕ) (γ : ℝ) (ψ : State n)
    (i : Fin (2 ^ n)) :
    ImplementQaoaLayerBasedOnCostFunction n cost γ ψ i =
        Complex.exp (-(Complex.ofReal (γ * (cost i : ℝ)) * Complex.I)) * ψ i ∧
      Complex.abs (Complex.exp (-(Complex.ofReal (γ * (cost i : ℝ)) * Complex.I))) = 1 ∧
      Complex.abs (ImplementQaoaLayerBasedOnCostFunction n cost γ ψ i) =
        Complex.abs (ψ i) ∧
      (∀ ψ' : State n, ψ' i = ψ i →
        ImplementQaoaLayerBasedOnCostFunction n cost γ ψ' i =
          ImplementQaoaLayerBasedOnCostFunction n cost γ ψ i) := by
  have habs : Complex.abs (Complex.exp (-(Complex.ofReal (γ * (cost i : ℝ)) * Complex.I))) = 1 := by
    rw [Complex.abs_exp]
    simp
  refine ⟨rfl, habs, ?_, ?_⟩
  · unfold ImplementQaoaLayerBasedOnCostFunction
    rw [map_mul, habs, one_mul]
  · intro ψ' hψ'
    unfold ImplementQaoaLayerBasedOnCostFunction
    rw [hψ']

theorem claim5_qaoa_layer_witness :
    ImplementQaoaLayerBasedOnCostFunction 1 (fun _ => 0) 0 (basisState 1 0) 0 =
        Complex.exp (-(Complex.ofReal ((0:ℝ) * ((0:ℕ) : ℝ)) * Complex.I)) *
          basisState 1 0 0 :=
  (claim5_qaoa_layer 1 (fun _ => 0) 0 (basisState 1 0) 0).1

/-- C6: controlled gates leave every amplitude whose control bit is 0 exactly
unchanged — only the amplitude pairs whose control bit is 1 are updated. -/
theorem claim6_control_frame (n c t : ℕ) (G : Matrix (Fin 2) (Fin 2) ℂ)
    (ψ : State n) (i : Fin (2 ^ n)) (hc : c < n) (ht : t < n) (hne : c ≠ t)
    (h0 : i.val.testBit c = false) :
    applyControlled1QubitGate n c t G ψ i = ψ i ∧ ApplyCPauliX n c t ψ i = ψ i := by
  constructor <;>
    simp [applyControlled1QubitGate, ApplyCPauliX, h0]

/-- C2: collapsing qubit `q` to outcome `b` zeroes exactly the amplitudes
whose bit `q` disagrees with `b`, leaves the others unchanged, leaves the
squared norm equal to the pre-collapse probability of `b`, and after a
subsequent successful `Normalize` the probability of qubit `q` is 1 for
outcome `true` and 0 for outcome `false`. -/
theorem claim2_collapse_qubit (n q : ℕ) (b : Bool) (ψ : State n) (hq : q < n) :
    (∀ i : Fin (2 ^ n), i.val.testBit q ≠ b → CollapseQubit n q b ψ i = 0) ∧
    (∀ i : Fin (2 ^ n), i.val.testBit q = b → CollapseQubit n q b ψ i = ψ i) ∧
    sumNormSq (CollapseQubit n q b ψ) = probOutcome n q b ψ ∧
    (∀ φ : State n, Normalize (CollapseQubit n q b ψ) = some φ →
      (GetProbability n q φ).2 = if b then 1 else 0) := by
  refine ⟨?_, ?_, sumNormSq_collapse b ψ, ?_⟩
  · intro i hi
    simp [CollapseQubit, hi]
  · intro i hi
    simp [CollapseQubit, hi]
  · intro φ hφ
    have hS0 : sumNormSq (CollapseQubit n q b ψ) ≠ 0 := by
      intro h0
      simp [Normalize, h0] at hφ
    have hφ' : φ = fun i => CollapseQubit n q b ψ i /
        Complex.ofReal (Real.sqrt (sumNormSq (CollapseQubit n q b ψ))) := by
      simp only [Normalize, hS0, if_false, Option.some_inj] at hφ
      exact hφ.symm
    have hpos : 0 < sumNormSq (CollapseQubit n q b ψ) :=
      lt_of_le_of_ne (sumNormSq_nonneg _) (Ne.symm hS0)
    rw [getProbability_eq_probOutcome, hφ']
    have hstep : ∀ i : Fin (2 ^ n),
        (if i.val.testBit q = true then
          Complex.normSq (CollapseQubit n q b ψ i /
            Complex.ofReal (Real.sqrt (sumNormSq (CollapseQubit n q b ψ)))) else 0) =
        (if i.val.testBit q = true then Complex.normSq (CollapseQubit n q b ψ i) else 0) /
          sumNormSq (CollapseQubit n q b ψ) := by
      intro i
      by_cases hb : i.val.testBit q = true
      · simp only [hb, if_true]
        rw [Complex.normSq_div, Complex.normSq_ofReal,
          Real.mul_self_sqrt (le_of_lt hpos)]
      · simp [hb]
    unfold probOutcome
    rw [Finset.sum_congr rfl fun i _ => hstep i, ← Finset.sum_div]
    have hnum := probOutcome_true_collapse (q := q) b ψ
    unfold probOutcome at hnum
    rw [hnum]
    cases b with
    | true => simpa using div_self hS0
    | false => simp

theorem claim2_collapse_qubit_witness :
    ∃ φ : State 1, Normalize (CollapseQubit 1 0 true (basisState 1 1)) = some φ ∧
      (GetProbability 1 0 φ).2 = 1 := by
  have hS : sumNormSq (CollapseQubit 1 0 true (basisState 1 1)) = 1 := by
    simp +decide [sumNormSq, CollapseQubit, basisState, Fin.sum_univ_succ]
  have hnorm : Normalize (CollapseQubit 1 0 true (basisState 1 1)) =
      some (fun i => CollapseQubit 1 0 true (basisState 1 1) i /
        Complex.ofReal (Real.sqrt (sumNormSq (CollapseQubit 1 0 true (basisState 1 1))))) := by
    rw [Normalize, if_neg (by rw [hS]; norm_num)]
  refine ⟨_, hnorm, ?_⟩
  have h := (claim2_collapse_qubit 1 0 true (basisState 1 1) (by decide)).2.2.2 _ hnorm
  simpa using h

/-- C8: `GetProbability(q)` returns the sum of squared magnitudes of the
amplitudes whose bit `q` is 1, a value in `[0, 1]` for a state whose squared
norm is at most 1, and leaves the state unchanged. -/
theorem claim8_get_probability (n q : ℕ) (ψ : State n) (h : sumNormSq ψ ≤ 1) :
    (GetProbability n q ψ).1 = ψ ∧
    (GetProbability n q ψ).2 =
      (∑ i, if i.val.testBit q = true then Complex.normSq (ψ i) else 0) ∧
    0 ≤ (GetProbability n q ψ).2 ∧ (GetProbability n q ψ).2 ≤ 1 :=
  ⟨rfl, rfl, probOutcome_nonneg true ψ,
    le_trans (probOutcome_le_sumNormSq true ψ) h⟩

theorem claim8_get_probability_witness :
    (GetProbability 1 0 (basisState 1 0)).1 = basisState 1 0 ∧
    (GetProbability 1 0 (basisState 1 0)).2 =
      (∑ i, if i.val.testBit 0 = true then Complex.normSq (basisState 1 0 i) else 0) ∧
    0 ≤ (GetProbability 1 0 (basisState 1 0)).2 ∧
    (GetProbability 1 0 (basisState 1 0)).2 ≤ 1 :=
  claim8_get_probability 1 0 (basisState 1 0)
    (by simp +decide [sumNormSq, basisState, Fin.sum_univ_succ])

theorem claim6_control_frame_witness :
    applyControlled1QubitGate 2 0 1 1 (basisState 2 0) ⟨0, by decide⟩ =
        basisState 2 0 ⟨0, by decide⟩ ∧
      ApplyCPauliX 2 0 1 (basisState 2 0) ⟨0, by decide⟩ = basisState 2 0 ⟨0, by decide⟩ :=
  claim6_control_frame 2 0 1 1 (basisState 2 0) ⟨0, by decide⟩
    (by decide) (by decide) (by decide) (by decide)

/-- C7: every mutating operation that is expected to preserve norm — the
built-in gates, `Apply1QubitGate` and `ApplyControlled1QubitGate` with a
unitary matrix, `ApplyRotationX`, the QAOA layer, and a successful
`Normalize` — keeps the sum of squared magnitudes equal to 1; only
`CollapseQubit` may leave the state denormalized, and a subsequent
successful `Normalize` restores the invariant. -/
theorem claim7_norm_invariant (n q c t : ℕ) (θ γ : ℝ) (b : Bool)
    (cost : Fin (2 ^ n) → ℕ) (G : Matrix (Fin 2) (Fin 2) ℂ) (ψ : State n)
    (hq : q < n) (ht : t < n) (hct : c ≠ t)
    (hG : G.conjTranspose * G = 1) (hψ : sumNormSq ψ = 1) :
    sumNormSq (ApplyPauliX n q ψ) = 1 ∧
    sumNormSq (ApplyHadamard n q ψ) = 1 ∧
    sumNormSq (ApplyRotationX n q θ ψ) = 1 ∧
    sumNormSq (apply1QubitGate n q G ψ) = 1 ∧
    sumNormSq (applyControlled1QubitGate n c t G ψ) = 1 ∧
    sumNormSq (ImplementQaoaLayerBasedOnCostFunction n cost γ ψ) = 1 ∧
    (∀ φ : State n, Normalize (CollapseQubit n q b ψ) = some φ → sumNormSq φ = 1) ∧
    (∀ ψ' φ : State n, Normalize ψ' = some φ → sumNormSq φ = 1) := by
  refine ⟨?_, ?_, ?_, ?_, ?_, ?_, ?_, ?_⟩
  · rw [ApplyPauliX, sumNormSq_apply1QubitGate hq pauliXMatrix pauliXMatrix_unitary, hψ]
  · rw [ApplyHadamard, sumNormSq_apply1QubitGate hq hadamardMatrix hadamardMatrix_unitary, hψ]
  · rw [ApplyRotationX,
      sumNormSq_apply1QubitGate hq (rotationXMatrix θ) (rotationXMatrix_unitary θ), hψ]
  · rw [sumNormSq_apply1QubitGate hq G hG, hψ]
  · rw [sumNormSq_applyControlled1QubitGate ht hct G hG, hψ]
  · rw [sumNormSq_qaoaLayer, hψ]
  · intro φ hφ
    exact sumNormSq_of_normalize _ φ hφ
  · intro ψ' φ hφ
    exact sumNormSq_of_normalize ψ' φ hφ

theorem claim7_norm_invariant_witness :
    sumNormSq (ApplyPauliX 2 0 (basisState 2 0)) = 1 ∧
    sumNormSq (ApplyHadamard 2 0 (basisState 2 0)) = 1 ∧
    sumNormSq (ApplyRotationX 2 0 0 (basisState 2 0)) = 1 ∧
    sumNormSq (apply1QubitGate 2 0 1 (basisState 2 0)) = 1 ∧
    sumNormSq (applyControlled1QubitGate 2 0 1 1 (basisState 2 0)) = 1 ∧
    sumNormSq (ImplementQaoaLayerBasedOnCostFunction 2 (fun _ => 0) 0 (basisState 2 0)) = 1 ∧
    (∀ φ : State 2, Normalize (CollapseQubit 2 0 false (basisState 2 0)) = some φ →
      sumNormSq φ = 1) ∧
    (∀ ψ' φ : State 2, Normalize ψ' = some φ → sumNormSq φ = 1) :=
  claim7_norm_invariant 2 0 0 1 0 0 false (fun _ => 0) 1 (basisState 2 0)
    (by decide) (by decide) (by decide)
    (by simp)
    (by simp +decide [sumNormSq, basisState, Fin.sum_univ_succ])

/-- C10: every operation other than `"rand"` initialization is a pure
deterministic function of the current amplitudes and its arguments: a call
sequence that never random-initializes produces the same final state and the
same reported values regardless of the random stream. -/
theorem claim10_determinism {n : ℕ} (ops : List (Op n)) (ψ : State n)
    (rng₁ rng₂ : ℕ → ℂ) (h : Op.initRand ∉ ops) :
    runOps rng₁ ops ψ = runOps rng₂ ops ψ := by
  induction ops generalizing ψ with
  | nil => rfl
  | cons op rest ih =>
      simp only [List.mem_cons, not_or] at h
      obtain ⟨h1, h2⟩ := h
      have hop : runOp rng₁ op ψ = runOp rng₂ op ψ := by
        cases op
        case initRand => exact absurd rfl h1
        all_goals rfl
      simp only [runOps]
      rw [hop, ih (runOp rng₂ op ψ).1 h2]

theorem claim10_determinism_witness :
    runOps (fun _ => 0) [Op.pauliX 0, Op.getProb 0] (basisState 1 0) =
      runOps (fun _ => 37) [Op.pauliX 0, Op.getProb 0] (basisState 1 0) :=
  claim10_determinism [Op.pauliX 0, Op.getProb 0] (basisState 1 0)
    (fun _ => 0) (fun _ => 37) (by simp)

/-- C4: the Max-Cut cost-function constructor stores in entry `i` of the
cost vector the number of adjacency edges cut by the bipartition encoded by
basis state `i`, and returns the maximum of those `2^N` counts; on the
6-vertex linear chain the returned maximum is 5. -/
theorem claim4_maxcut_cost_function (N : ℕ) (A : Fin N → Fin N → ℕ) :
    ((InitializeVectorAsMaxCutCostFunction N A).1 = fun i : Fin (2 ^ N) =>
      cutValue N A i.val) ∧
    (∀ i : Fin (2 ^ N), (InitializeVectorAsMaxCutCostFunction N A).1 i ≤
      (InitializeVectorAsMaxCutCostFunction N A).2) ∧
    (∃ i : Fin (2 ^ N), (InitializeVectorAsMaxCutCostFunction N A).1 i =
      (InitializeVectorAsMaxCutCostFunction N A).2) ∧
    (InitializeVectorAsMaxCutCostFunction 6 chainAdjacency).2 = 5 := by
  refine ⟨rfl, ?_, ?_, ?_⟩
  · intro i
    exact Finset.le_sup (f := cutValue N A) (Finset.mem_range.mpr i.isLt)
  · obtain ⟨b, hb, hval⟩ := Finset.exists_mem_eq_sup (Finset.range (2 ^ N))
      ⟨0, Finset.mem_range.mpr (Nat.two_pow_pos N)⟩ (cutValue N A)
    exact ⟨⟨b, Finset.mem_range.mp hb⟩, hval.symm⟩
  · show (Finset.range (2 ^ 6)).sup (cutValue 6 chainAdjacency) = 5
    set_option maxRecDepth 40000 in decide

theorem sum_ite_const_real {n : ℕ} (p : Fin (2 ^ n) → Prop) [DecidablePred p] (r : ℝ) :
    (∑ i, if p i then r else 0) = ((Finset.univ.filter p).card : ℝ) * r := by
  rw [← Finset.sum_filter, Finset.sum_const, nsmul_eq_mul]

theorem normSq_uniformState (n : ℕ) (i : Fin (2 ^ n)) :
    Complex.normSq (uniformState n i) = ((2 ^ n : ℝ))⁻¹ := by
  unfold uniformState
  rw [Complex.normSq_ofReal, ← mul_inv,
    Real.mul_self_sqrt (by positivity : (0:ℝ) ≤ (2 : ℝ) ^ n)]

/-- Concrete scenario of C3: the histogram of the uniform superposition on 6
qubits for the cost function of the two-edge graph 0-1, 4-5. -/
theorem histogram_twoEdge_uniform :
    GetHistogramFromCostFunction 6 (uniformState 6)
      (InitializeVectorAsMaxCutCostFunction 6 twoEdgeAdjacency).1
      (InitializeVectorAsMaxCutCostFunction 6 twoEdgeAdjacency).2 =
      [1/4, 1/2, 1/4] := by
  have h2 : (InitializeVectorAsMaxCutCostFunction 6 twoEdgeAdjacency).2 = 2 := by
    show (Finset.range (2 ^ 6)).sup (cutValue 6 twoEdgeAdjacency) = 2
    set_option maxRecDepth 40000 in decide
  rw [h2]
  have hbin : ∀ c : ℕ,
      (∑ i, if (InitializeVectorAsMaxCutCostFunction 6 twoEdgeAdjacency).1 i = c
        then Complex.normSq (uniformState 6 i) else 0) =
      ((Finset.univ.filter
          (fun i : Fin (2 ^ 6) => cutValue 6 twoEdgeAdjacency i.val = c)).card : ℝ) *
        ((2 ^ 6 : ℝ))⁻¹ := by
    intro c
    rw [Finset.sum_congr rfl (fun i _ => by rw [normSq_uniformState 6 i])]
    exact sum_ite_const_real
      (fun i : Fin (2 ^ 6) => cutValue 6 twoEdgeAdjacency i.val = c) _
  have hc0 : (Finset.univ.filter
      (fun i : Fin (2 ^ 6) => cutValue 6 twoEdgeAdjacency i.val = 0)).card = 16 := by
    set_option maxRecDepth 40000 in decide
  have hc1 : (Finset.univ.filter
      (fun i : Fin (2 ^ 6) => cutValue 6 twoEdgeAdjacency i.val = 1)).card = 32 := by
    set_option maxRecDepth 40000 in decide
  have hc2 : (Finset.univ.filter
      (fun i : Fin (2 ^ 6) => cutValue 6 twoEdgeAdjacency i.val = 2)).card = 16 := by
    set_option maxRecDepth 40000 in decide
  show List.ofFn (fun c : Fin 3 =>
      ∑ i, if (InitializeVectorAsMaxCutCostFunction 6 twoEdgeAdjacency).1 i = c.val
        then Complex.normSq (uniformState 6 i) else 0) = [1/4, 1/2, 1/4]
  simp only [List.ofFn_succ, List.ofFn_zero, Fin.val_zero, Fin.val_succ, Fin.succ_zero_eq_one,
    Fin.val_one]
  rw [hbin 0, hbin 1, hbin 2, hc0, hc1, hc2]
  norm_num

/-- C3: the histogram has exactly `maxCut+1` ordered bins, bin `c` is the
probability mass of the basis states whose cost entry equals `c`, the bins
sum to 1 for a normalized state and a cost vector bounded by `maxCut`, and
the uniform superposition on 6 qubits with the two-edge graph 0-1, 4-5
yields `[0.25, 0.5, 0.25]`. -/
theorem claim3_histogram (n maxc : ℕ) (cost : Fin (2 ^ n) → ℕ) (ψ : State n)
    (hcost : ∀ i, cost i ≤ maxc) (hψ : sumNormSq ψ = 1) :
    (GetHistogramFromCostFunction n ψ cost maxc).length = maxc + 1 ∧
    (∀ c : Fin (maxc + 1), (GetHistogramFromCostFunction n ψ cost maxc).get
        (Fin.cast (List.length_ofFn _).symm c) =
      ∑ i, if cost i = c.val then Complex.normSq (ψ i) else 0) ∧
    (GetHistogramFromCostFunction n ψ cost maxc).sum = 1 ∧
    GetHistogramFromCostFunction 6 (uniformState 6)
      (InitializeVectorAsMaxCutCostFunction 6 twoEdgeAdjacency).1
      (InitializeVectorAsMaxCutCostFunction 6 twoEdgeAdjacency).2 =
      [1/4, 1/2, 1/4] := by
  refine ⟨List.length_ofFn _, ?_, ?_, histogram_twoEdge_uniform⟩
  · intro c
    unfold GetHistogramFromCostFunction
    rw [List.get_ofFn]
    simp
  · unfold GetHistogramFromCostFunction
    rw [List.sum_ofFn]
    rw [Finset.sum_comm]
    have hinner : ∀ i : Fin (2 ^ n),
        (∑ c : Fin (maxc + 1), if cost i = c.val then Complex.normSq (ψ i) else 0) =
          Complex.normSq (ψ i) := by
      intro i
      rw [Finset.sum_eq_single (⟨cost i, Nat.lt_succ_of_le (hcost i)⟩ : Fin (maxc + 1))]
      · simp
      · intro b _ hb
        have hne : cost i ≠ b.val := by
          intro hh
          exact hb (Fin.ext hh.symm)
        simp [hne]
      · intro hmem
        exact absurd (Finset.mem_univ _) hmem
    rw [Finset.sum_congr rfl fun i _ => hinner i]
    exact hψ

theorem claim3_histogram_witness :
    (GetHistogramFromCostFunction 1 (basisState 1 0) (fun _ => 0) 0).length = 0 + 1 ∧
    (∀ c : Fin (0 + 1), (GetHistogramFromCostFunction 1 (basisState 1 0) (fun _ => 0) 0).get
        (Fin.cast (List.length_ofFn _).symm c) =
      ∑ i, if (fun _ : Fin (2 ^ 1) => 0) i = c.val
        then Complex.normSq (basisState 1 0 i) else 0) ∧
    (GetHistogramFromCostFunction 1 (basisState 1 0) (fun _ => 0) 0).sum = 1 ∧
    GetHistogramFromCostFunction 6 (uniformState 6)
      (InitializeVectorAsMaxCutCostFunction 6 twoEdgeAdjacency).1
      (InitializeVectorAsMaxCutCostFunction 6 twoEdgeAdjacency).2 =
      [1/4, 1/2, 1/4] :=
  claim3_histogram 1 0 (fun _ => 0) (basisState 1 0) (fun _ => le_refl 0)
    (by simp +decide [sumNormSq, basisState, Fin.sum_univ_succ])

/-- The state `H₁ H₀ |1010⟩` in closed form. -/
theorem prepared_eq : preparedPlusMinus01 = fun i : Fin (2 ^ 4) =>
    Complex.ofReal (preparedCoeff i.val) := by
  have hs : invSqrtTwo * invSqrtTwo = Complex.ofReal 2⁻¹ := by
    unfold invSqrtTwo
    rw [← Complex.ofReal_mul, ← mul_inv, Real.mul_self_sqrt (by norm_num : (0:ℝ) ≤ 2)]
  funext i
  fin_cases i <;>
    simp +decide [preparedPlusMinus01, ApplyHadamard, apply1QubitGate, hadamardMatrix,
      flipBit, basisState, preparedCoeff, hs]

set_option maxHeartbeats 1000000 in
theorem innerProd_prepared_X0 : innerProd preparedPlusMinus01
    (applyPauliString 4 [(0, 1)] preparedPlusMinus01) = 1 := by
  rw [prepared_eq]
  simp +decide [innerProd, applyPauliString, apply1QubitGate, pauliMatrix, pauliXMatrix,
    flipBit, preparedCoeff, Fin.sum_univ_succ]
  norm_num

set_option maxHeartbeats 1000000 in
theorem innerProd_prepared_X0Z3 : innerProd preparedPlusMinus01
    (applyPauliString 4 [(0, 1), (3, 3)] preparedPlusMinus01) = -1 := by
  rw [prepared_eq]
  simp +decide [innerProd, applyPauliString, apply1QubitGate, pauliMatrix, pauliXMatrix,
    pauliZMatrix, flipBit, preparedCoeff, Fin.sum_univ_succ]
  norm_num

/-- C1: `ExpectationValue(qubitIndices, pauliAxes, coefficient)` returns
`coefficient · ⟨ψ|P|ψ⟩` for the Pauli string `P` encoded X=1, Y=2, Z=3 at the
listed qubit positions and identity elsewhere, without changing any
amplitude; on the 4-qubit state prepared by `Initialize("base", 10)` followed
by Hadamard on qubits 0 and 1, `ExpectationValue([0],[1],1.0)` equals 1 and
`ExpectationValue([0,3],[1,3],1.0)` equals -1. -/
theorem claim1_expectation_value :
    (∀ (n : ℕ) (qs axes : List ℕ) (coeff : ℝ) (ψ : State n),
      (ExpectationValue n qs axes coeff ψ).1 = ψ ∧
      (ExpectationValue n qs axes coeff ψ).2 =
        Complex.ofReal coeff * innerProd ψ (applyPauliString n (qs.zip axes) ψ)) ∧
    (ExpectationValue 4 [0] [1] 1 preparedPlusMinus01).2 = 1 ∧
    (ExpectationValue 4 [0, 3] [1, 3] 1 preparedPlusMinus01).2 = -1 := by
  refine ⟨fun n qs axes coeff ψ => ⟨rfl, rfl⟩, ?_, ?_⟩
  · show Complex.ofReal 1 * innerProd preparedPlusMinus01
      (applyPauliString 4 [(0, 1)] preparedPlusMinus01) = 1
    rw [innerProd_prepared_X0]
    norm_num
  · show Complex.ofReal 1 * innerProd preparedPlusMinus01
      (applyPauliString 4 [(0, 1), (3, 3)] preparedPlusMinus01) = -1
    rw [innerProd_prepared_X0Z3]
    norm_num

end IntelQS
